import Mathlib


/- Verification of the collab-claude-code trust-resolution core
   (src/collab.ts): inline-comment parsing, scope detection, glob
   matching, and four-tier trust resolution.

   Modelling conventions.
   - TypeScript strings are modelled as List Char; the public entry
     points take String and convert via String.data.
   - The file content that parseAnnotations reads from disk is passed
     explicitly as an Option String (none models an unreadable file,
     i.e. the catch branch that returns an empty list).
   - A thrown JavaScript exception is modelled by none in an
     Option-valued result (new RegExp throws a SyntaxError on an
     invalid pattern, and src/collab.ts does not catch it).
   - The fixed regular expressions of the source are hand-translated
     into deterministic matchers that follow the JS engine semantics
     (leftmost match, alternation order, greedy/lazy preference, and
     the line-terminator behavior of the dot and of the end anchor) on
     line inputs, which never contain the newline character itself but
     may contain carriage returns when the file uses CR or CRLF line
     endings.
   - Loops over line arrays are modelled with an explicit fuel
     argument chosen so it cannot be exhausted (every iteration
     advances the scanned index by at least one line); this keeps the
     definitions kernel-computable. -/

/-- JS whitespace (the regex class backslash-s, also used by
String.prototype.trim): the ASCII whitespace characters together with
the line separators U+2028 and U+2029. The remaining non-ASCII JS
whitespace code points (no-break and typographic spaces) occur in no
input considered here. -/
def isJsSpace (c : Char) : Bool :=
  c == ' ' || c == '\t' || c == '\n' || c == '\r' || c == '\x0b' || c == '\x0c'
    || c == '\u2028' || c == '\u2029'

/-- JS line terminators: the characters the regex dot never matches. -/
def isLineTerm (c : Char) : Bool :=
  c == '\n' || c == '\r' || c == '\u2028' || c == '\u2029'

/-- JS regex word character, the class backslash-w. -/
def isWordChar (c : Char) : Bool :=
  c.isAlphanum || c == '_'

/-- String.prototype.trim on a character list. -/
def jsTrim (s : List Char) : List Char :=
  ((s.dropWhile isJsSpace).reverse.dropWhile isJsSpace).reverse

/-- Number of leading whitespace characters: s.length - s.trimStart().length. -/
def indentOf (s : List Char) : Nat :=
  (s.takeWhile isJsSpace).length

/-- String.prototype.split (one-character separator) on a character list. -/
def splitOnCh (sep : Char) : List Char → List (List Char)
  | [] => [[]]
  | c :: r =>
    if c == sep then [] :: splitOnCh sep r
    else
      match splitOnCh sep r with
      | [] => [[c]]
      | f :: more => (c :: f) :: more

/-- If pat is a literal prefix of s, return the remainder of s. -/
def dropLit : List Char → List Char → Option (List Char)
  | [], s => some s
  | _ :: _, [] => none
  | p :: ps, c :: cs => if p == c then dropLit ps cs else none

/-- String.prototype.startsWith on character lists. -/
def startsWithL (s pat : List Char) : Bool :=
  (dropLit pat s).isSome

/-- String.prototype.endsWith on character lists. -/
def endsWithL (s pat : List Char) : Bool :=
  (dropLit pat.reverse s.reverse).isSome

/-- Substring containment (leftmost search of a literal). -/
def hasSub (pat : List Char) : List Char → Bool
  | [] => (dropLit pat []).isSome
  | s@(_ :: rest) => (dropLit pat s).isSome || hasSub pat rest

/-- Replace every occurrence of a nonempty literal pat by rep, scanning
left to right without rescanning replacements: the semantics of the JS
String.prototype.replace with a global literal regex. Fuel bounds the
scan; it is called with the input length, which suffices because every
step consumes at least one input character. -/
def replaceAllL (pat rep : List Char) : Nat → List Char → List Char
  | _, [] => []
  | 0, s => s
  | fuel + 1, s@(c :: rest) =>
    match dropLit pat s with
    | some r => rep ++ replaceAllL pat rep fuel r
    | none => c :: replaceAllL pat rep fuel rest

/- ============================================================
   The fixed regular expressions of src/collab.ts, hand-translated.
   ANNOTATION_PATTERN =
     (?:\/\/|#|\/\*\*?)\s*@collab(?::begin|:end)?\s+(.+?)(?:\*\/)?$
   BLOCK_BEGIN_PATTERN = @collab:begin\s+(.+)
   BLOCK_END_PATTERN   = @collab:end
   ATTR_PATTERN = (\w+)=(?:"([^"]+)"|'([^']+)'|\[([^\]]+)\]|(\S+))
   ============================================================ -/

/-- Alternatives for the comment opener of ANNOTATION_PATTERN at the
current position, in JS alternation/greediness preference order: two
slashes, hash, slash-star-star (the optional second star taken first),
slash-star. Each entry is the remaining input after the opener. -/
def openerRests : List Char → List (List Char)
  | '/' :: '/' :: r => [r]
  | '/' :: '*' :: '*' :: r => [r, '*' :: r]
  | '/' :: '*' :: r => [r]
  | '#' :: r => [r]
  | _ => []

/-- The suffix matcher for ANNOTATION_PATTERN after the optional
:begin/:end tag: one-or-more whitespace, then the lazy capture of at
least one character, then an optional star-slash closer, then the
dollar anchor. Without the multiline flag the dollar matches only at
the end of the input string, and the dot never matches a line
terminator, so the capture must be a terminator-free span reaching the
end of the line (or the position just before a trailing star-slash);
shrinking the whitespace run during backtracking only enlarges the
required span, so a terminator after the run makes the whole match
fail. The lazy group stops as early as possible, hence a trailing
star-slash is excluded whenever at least one captured character
remains; when everything to the end of the line is whitespace, the run
backtracks to leave its last character as the capture, provided that
character is not itself a terminator. In particular a line with an
interior or trailing carriage return (a CR- or CRLF-encoded file after
splitting on the newline alone) admits no match. -/
def tailCapture (s : List Char) : Option (List Char) :=
  let w := s.takeWhile isJsSpace
  let rest := s.dropWhile isJsSpace
  if w.isEmpty then none
  else if !rest.isEmpty then
    if endsWithL rest ['*', '/'] && rest.length ≥ 3
        && !(rest.take (rest.length - 2)).any isLineTerm then
      some (rest.take (rest.length - 2))
    else if !rest.any isLineTerm then some rest
    else none
  else if w.length ≥ 2 && !isLineTerm (w.getLast?.getD ' ') then
    some [w.getLast?.getD ' ']
  else none

/-- Attempt to match ANNOTATION_PATTERN at the head of s, returning the
first capture group. The optional (?::begin|:end)? group is greedy; if
it consumes a tag, the empty alternative can never make the rest of the
pattern succeed (the next character would be a colon, which fails the
following whitespace requirement), so taking the tag is deterministic. -/
def annotationCapAt (s : List Char) : Option (List Char) :=
  (openerRests s).findSome? fun r =>
    match dropLit ("@collab".data) (r.dropWhile isJsSpace) with
    | none => none
    | some r2 =>
      let r3 := match dropLit (":begin".data) r2 with
        | some x => x
        | none =>
          match dropLit (":end".data) r2 with
          | some x => x
          | none => r2
      tailCapture r3

/-- ANNOTATION_PATTERN.exec(line): leftmost match, first capture group. -/
def annotationExec : List Char → Option (List Char)
  | [] => none
  | s@(_ :: rest) =>
    match annotationCapAt s with
    | some cap => some cap
    | none => annotationExec rest

/-- Attempt to match BLOCK_BEGIN_PATTERN at the head of s, returning the
capture: after the literal tag, one-or-more whitespace, then a greedy
capture of at least one character. The pattern has no end anchor and
the dot never matches a line terminator, so the greedy capture runs
from the first character after the whitespace run up to the first line
terminator or the end of the line; when everything after the tag is
whitespace, the run backtracks until the dot can consume a character,
capturing the last non-terminator whitespace character, if one exists
beyond the first whitespace position. -/
def blockBeginCapAt (s : List Char) : Option (List Char) :=
  match dropLit ("@collab:begin".data) s with
  | none => none
  | some r =>
    let w := r.takeWhile isJsSpace
    let rest := r.dropWhile isJsSpace
    if w.isEmpty then none
    else if !rest.isEmpty then some (rest.takeWhile (fun c => !isLineTerm c))
    else
      match (w.drop 1).reverse.dropWhile isLineTerm with
      | c :: _ => some [c]
      | [] => none

/-- BLOCK_BEGIN_PATTERN.exec(line): leftmost match, capture group. -/
def blockBeginExec : List Char → Option (List Char)
  | [] => none
  | s@(_ :: rest) =>
    match blockBeginCapAt s with
    | some cap => some cap
    | none => blockBeginExec rest

/-- BLOCK_BEGIN_PATTERN.test(line). -/
def blockBeginTest (s : List Char) : Bool :=
  (blockBeginExec s).isSome

/-- BLOCK_END_PATTERN.test(line): substring search for the literal tag. -/
def blockEndTest (s : List Char) : Bool :=
  hasSub ("@collab:end".data) s

/- ============================================================
   Data model (src/collab.ts, Types section).
   ============================================================ -/

/-- The four-value trust enumeration. -/
inductive TrustLevel
  | AUTONOMOUS
  | SUGGEST_ONLY
  | READ_ONLY
  | SUPERVISED
deriving DecidableEq

/-- TrustPolicy record. -/
structure TrustPolicy where
  pattern : String
  trust : TrustLevel
  owner : Option String := none
  reason : Option String := none
deriving DecidableEq

/-- RegionOverride record. -/
structure RegionOverride where
  file : String
  line_start : Nat
  line_end : Nat
  trust : TrustLevel
  reason : Option String := none
deriving DecidableEq

/-- TrustConfig record; regions is an optional field in the source. -/
structure TrustConfig where
  default_trust : TrustLevel
  policies : List TrustPolicy
  regions : Option (List RegionOverride) := none
deriving DecidableEq

/-- TrustResult record; source is one of "annotation", "region",
"policy", "default" when present. -/
structure TrustResult where
  level : TrustLevel
  reason : Option String := none
  owner : Option String := none
  intent : Option String := none
  constraints : Option (List String) := none
  source : Option String := none
deriving DecidableEq

/-- ParsedAnnotation record of the source (name shortened). Line
numbers are 1-indexed and inclusive. -/
structure ParsedAnn where
  trust : Option TrustLevel := none
  owner : Option String := none
  intent : Option String := none
  constraints : Option (List String) := none
  line_start : Nat
  line_end : Nat
deriving DecidableEq

/- ============================================================
   parseAttributes (src/collab.ts lines 135-167).
   ============================================================ -/

/-- Result of parseAttributes. A JS object can hold a property whose
value is undefined (assigning an undefined value still creates the
property, and Object.assign copies it); the owner and intent fields are
therefore doubly optional: the outer layer is property presence, the
inner layer is the value. trust is only ever assigned a valid level and
constraints only a real list, so one layer suffices there. -/
structure AttrAcc where
  trust : Option TrustLevel := none
  owner : Option (Option String) := none
  intent : Option (Option String) := none
  constraints : Option (List String) := none
deriving DecidableEq

/-- Quoted-value alternative of ATTR_PATTERN: quote q, one-or-more
characters other than q (greedy, hence up to the first closing q), then
q. Returns the inner value and the remainder after the closing quote. -/
def quotedVal (q : Char) (r : List Char) : Option (List Char × List Char) :=
  match r with
  | c :: r1 =>
    if c == q then
      let inner := r1.takeWhile (fun d => d != q)
      if inner.isEmpty then none
      else
        match r1.drop inner.length with
        | d :: r3 => if d == q then some (inner, r3) else none
        | [] => none
    else none
  | [] => none

/-- Bracketed-list alternative of ATTR_PATTERN. -/
def bracketVal (r : List Char) : Option (List Char × List Char) :=
  match r with
  | c :: r1 =>
    if c == '[' then
      let inner := r1.takeWhile (fun d => d != ']')
      if inner.isEmpty then none
      else
        match r1.drop inner.length with
        | d :: r3 => if d == ']' then some (inner, r3) else none
        | [] => none
    else none
  | [] => none

/-- The value alternation of ATTR_PATTERN, tried in JS order:
double-quoted, single-quoted, bracketed list, bare non-space token.
Returns (value group, array group, remainder); value is group 2, 3 or 5
of the source regex, array is group 4. -/
def attrValue (r : List Char) :
    Option (Option (List Char) × Option (List Char) × List Char) :=
  match quotedVal '\x22' r with
  | some (v, rest) => some (some v, none, rest)
  | none =>
    match quotedVal '\x27' r with
    | some (v, rest) => some (some v, none, rest)
    | none =>
      match bracketVal r with
      | some (v, rest) => some (none, some v, rest)
      | none =>
        let v := r.takeWhile (fun c => !(isJsSpace c))
        if v.isEmpty then none else some (some v, none, r.drop v.length)

/-- Repeated ATTR_PATTERN.exec over a string (the while loop of
parseAttributes): at each position, a maximal word-character run
followed by an equals sign starts a match (shrinking the run can never
reach the equals sign, and if the value alternation fails the engine
advances the start position by one character). Fuel is the input
length; every step consumes at least one character. -/
def attrTokens : Nat → List Char →
    List (List Char × Option (List Char) × Option (List Char))
  | _, [] => []
  | 0, _ => []
  | fuel + 1, s@(_ :: rest) =>
    let w := s.takeWhile isWordChar
    if !w.isEmpty && startsWithL (s.drop w.length) ['='] then
      match attrValue (s.drop (w.length + 1)) with
      | some (v, arr, r2) => (w, v, arr) :: attrTokens fuel r2
      | none => attrTokens fuel rest
    else attrTokens fuel rest

/-- The split-trim-strip of the constraints case: split on commas, trim
each piece, then strip one leading and one trailing quote character
(the global replace of the anchored quote alternation removes at most
one of each). -/
def stripQuotes1 (s : List Char) : List Char :=
  let s1 := match s with
    | c :: r => if c == '\x22' || c == '\x27' then r else s
    | [] => []
  match s1.getLast? with
  | some c => if c == '\x22' || c == '\x27' then s1.dropLast else s1
  | none => s1

/-- One switch step of parseAttributes for a single ATTR_PATTERN match. -/
def attrStep (acc : AttrAcc)
    (t : List Char × Option (List Char) × Option (List Char)) : AttrAcc :=
  let key := t.1
  let value := t.2.1
  let arr := t.2.2
  if key = ("trust".data) then
    match value with
    | some v =>
      if v = ("AUTONOMOUS".data) then { acc with trust := some TrustLevel.AUTONOMOUS }
      else if v = ("SUPERVISED".data) then { acc with trust := some TrustLevel.SUPERVISED }
      else if v = ("SUGGEST_ONLY".data) then { acc with trust := some TrustLevel.SUGGEST_ONLY }
      else if v = ("READ_ONLY".data) then { acc with trust := some TrustLevel.READ_ONLY }
      else acc
    | none => acc
  else if key = ("owner".data) then { acc with owner := some (value.map String.mk) }
  else if key = ("intent".data) then { acc with intent := some (value.map String.mk) }
  else if key = ("constraints".data) then
    match arr with
    | some a =>
      let cs := (splitOnCh ',' a).map (fun p => String.mk (stripQuotes1 (jsTrim p)))
      { acc with constraints := some cs }
    | none => acc
  else acc

/-- parseAttributes: scan all ATTR_PATTERN matches and fold the switch. -/
def parseAttributes (s : List Char) : AttrAcc :=
  (attrTokens s.length s).foldl attrStep {}

/-- Object.assign field overwrite: a present property of the second
object (even one holding undefined) replaces the first object's. -/
def ovw {α : Type} (old new : Option α) : Option α :=
  match new with
  | some v => some v
  | none => old

/-- Object.assign(collectedAttrs, nextAttrs) for attribute records. -/
def mergeAttrs (a b : AttrAcc) : AttrAcc :=
  { trust := ovw a.trust b.trust
    owner := ovw a.owner b.owner
    intent := ovw a.intent b.intent
    constraints := ovw a.constraints b.constraints }

/-- Build the pushed record from collected attributes and a scope:
the spread of the attribute object followed by line_start/line_end. A
present-but-undefined owner or intent collapses to an absent one, which
is how every consumer of the record observes it. -/
def mkAnn (a : AttrAcc) (s e : Nat) : ParsedAnn :=
  { trust := a.trust
    owner := a.owner.join
    intent := a.intent.join
    constraints := a.constraints
    line_start := s
    line_end := e }

/- ============================================================
   getFileExtension and detectAnnotationScope
   (src/collab.ts lines 169-244).
   ============================================================ -/

/-- path.extname(filePath).toLowerCase() with a leading dot stripped
(POSIX rules: the extension is taken from the last path segment; a dot
at position zero of the segment, as in a dotfile, yields no
extension). -/
def getFileExtension (p : String) : String :=
  let base := (splitOnCh '/' p.data).getLast?.getD []
  let parts := splitOnCh '.' base
  if parts.length ≤ 1 then ""
  else if parts.length = 2 && (parts.headD []).isEmpty then ""
  else String.mk ((parts.getLast?.getD []).map Char.toLower)

/-- The definition-line filter: a trimmed line that is nonempty and
starts with none of the comment openers. -/
def isSubstantive (line : List Char) : Bool :=
  let t := jsTrim line
  !t.isEmpty && !startsWithL t ("//".data) && !startsWithL t ("#".data)
    && !startsWithL t ("/*".data) && !startsWithL t ("*".data)

/-- The while loop searching for the first substantive line, walking a
suffix of the line array while tracking the absolute index. -/
def findDefLineAux : List (List Char) → Nat → Nat
  | [], i => i
  | l :: rest, i => if isSubstantive l then i else findDefLineAux rest (i + 1)

/-- Index of the first substantive line at or after index i (the array
length if none exists). -/
def findDefLine (lines : List (List Char)) (i : Nat) : Nat :=
  findDefLineAux (lines.drop i) i

/-- The indentation-based end search for Python files: skip blank
lines, stop before the first non-blank line whose indentation does not
exceed the base, otherwise record the line as the current end. -/
def pyEndAux (base : Nat) : List (List Char) → Nat → Nat → Nat
  | [], _, e => e
  | l :: rest, i, e =>
    if (jsTrim l).isEmpty then pyEndAux base rest (i + 1) e
    else if indentOf l ≤ base then e
    else pyEndAux base rest (i + 1) i

/-- The character step of the brace counter: increment on an opening
brace (recording that one was seen), decrement on a closing brace. -/
def braceStep (st : Int × Bool) (c : Char) : Int × Bool :=
  if c = '\x7b' then (st.1 + 1, true)
  else if c = '\x7d' then (st.1 - 1, st.2)
  else st

/-- The brace-counting loop: process each line's characters, and stop
at the first line after which an opening brace has been seen and the
counter is back to zero; if the scan exhausts the file, the end stays
at the default d (the definition line). -/
def braceScanAux : List (List Char) → Nat → Int → Bool → Nat → Nat
  | [], _, _, _, d => d
  | l :: rest, i, cnt, fnd, d =>
    let st := l.foldl braceStep (cnt, fnd)
    if st.2 && st.1 = 0 then i
    else braceScanAux rest (i + 1) st.1 st.2 d

/-- Brace-based block end starting from the definition line d. -/
def braceScan (lines : List (List Char)) (d : Nat) : Nat :=
  braceScanAux (lines.drop d) d 0 false d

/-- The extension list of the brace-based branch. -/
def braceExts : List String := ["go", "rs", "java", "ts", "tsx", "js", "jsx"]

/-- detectAnnotationScope: 1-indexed inclusive scope of the code a
marker ending at line index annIdx (0-indexed) protects. -/
def detectAnnotationScope (lines : List (List Char)) (annIdx : Nat)
    (fileExt : String) : Nat × Nat :=
  let startLine := annIdx + 1
  let defIdx := findDefLine lines (annIdx + 1)
  if defIdx ≥ lines.length then (startLine, startLine)
  else if fileExt = "py" then
    let base := indentOf (lines.getD defIdx [])
    (defIdx + 1, pyEndAux base (lines.drop (defIdx + 1)) (defIdx + 1) defIdx + 1)
  else if braceExts.contains fileExt then
    (defIdx + 1, braceScan lines defIdx + 1)
  else (defIdx + 1, defIdx + 1)

/- ============================================================
   parseAnnotations (src/collab.ts lines 246-323).
   ============================================================ -/

/-- The inner loop looking for the matching block end: first line index
at or after j whose line passes BLOCK_END_PATTERN.test. -/
def findBlockEndAux : List (List Char) → Nat → Option Nat
  | [], _ => none
  | l :: rest, j => if blockEndTest l then some j else findBlockEndAux rest (j + 1)

/-- Search for a block end from absolute index j on. -/
def findBlockEnd (lines : List (List Char)) (j : Nat) : Option Nat :=
  findBlockEndAux (lines.drop j) j

/-- The inner loop collecting consecutive marker lines of a multi-line
comment group: while the next line matches ANNOTATION_PATTERN and is
neither a block begin nor a block end, merge its attributes and advance
the last-marker index. -/
def collectMultiAux : List (List Char) → AttrAcc → Nat → Nat → AttrAcc × Nat
  | [], acc, _, last => (acc, last)
  | l :: rest, acc, j, last =>
    match annotationExec l with
    | some cap =>
      if blockBeginTest l || blockEndTest l then (acc, last)
      else collectMultiAux rest (mergeAttrs acc (parseAttributes cap)) (j + 1) j
    | none => (acc, last)

/-- Collect consecutive marker lines starting at absolute index j, with
the current last-marker index last. -/
def collectMulti (lines : List (List Char)) (acc : AttrAcc) (j last : Nat) :
    AttrAcc × Nat :=
  collectMultiAux (lines.drop j) acc j last

/-- The main while loop of parseAnnotations over the line array, with
the current index i. Fuel is one more than the array length; every
iteration advances i by at least one (a found block end lies strictly
beyond i, and the last collected marker line never precedes i), so the
fuel cannot run out before the index leaves the array. -/
def parseLoop (lines : List (List Char)) (ext : String) :
    Nat → Nat → List ParsedAnn
  | 0, _ => []
  | fuel + 1, i =>
    if i < lines.length then
      let line := lines.getD i []
      match blockBeginExec line with
      | some cap =>
        let attrs := parseAttributes cap
        let blockStart := i + 1
        (match findBlockEnd lines (i + 1) with
         | some j => mkAnn attrs (blockStart + 1) j :: parseLoop lines ext fuel (j + 1)
         | none => mkAnn attrs (blockStart + 1) blockStart :: parseLoop lines ext fuel (i + 1))
      | none =>
        match annotationExec line with
        | some cap =>
          if blockEndTest line then parseLoop lines ext fuel (i + 1)
          else
            let c := collectMulti lines (parseAttributes cap) (i + 1) i
            let scope := detectAnnotationScope lines c.2 ext
            mkAnn c.1 scope.1 scope.2 :: parseLoop lines ext fuel (c.2 + 1)
        | none => parseLoop lines ext fuel (i + 1)
    else []

/-- parseAnnotations. The file content is supplied explicitly: none
models an unreadable file (the catch branch returning the empty list);
some content models a successful read, after which the content is split
on the newline character — the source performs no line-ending
normalization. -/
def parseAnnotations (content : Option String) (filePath : String) :
    List ParsedAnn :=
  match content with
  | none => []
  | some c =>
    let lines := (splitOnCh '\n' c.data)
    parseLoop lines (getFileExtension filePath) (lines.length + 1) 0

/- ============================================================
   matchesPattern (src/collab.ts lines 350-358) and the model of the
   JS regular-expression engine for the subset of syntax the glob
   conversion can produce.
   ============================================================ -/

/-- The glob-to-regex-source conversion of matchesPattern: three
successive global string replacements. Each replacement rescans the
result of the previous call, so the star inserted by the first
replacement is itself rewritten by the second. -/
def globToRegexStr (pattern : String) : List Char :=
  let s1 := replaceAllL ("**".data) (".*".data) pattern.length pattern.data
  let s2 := replaceAllL ("*".data) ("[^/]*".data) s1.length s1
  replaceAllL ("?".data) (".".data) s2.length s2

/-- An atom of the modelled regex subset. -/
inductive RAtom
  | lit (c : Char)
  | anyChar
  | cls (neg : Bool) (cs : List Char)
deriving DecidableEq

/-- A concatenation piece: an atom, or a starred atom. -/
inductive RPiece
  | once (a : RAtom)
  | star (a : RAtom)
deriving DecidableEq

/-- Character-class body parser: after the opening bracket, an optional
caret, then literal characters up to the closing bracket. A class with
no closing bracket is a SyntaxError in JS (unterminated character
class), modelled by none; a backslash inside the class is outside the
modelled subset and also rejected. -/
def parseClass (s : List Char) : Option (Bool × List Char × List Char) :=
  let (neg, s1) := match s with
    | '^' :: r => (true, r)
    | _ => (false, s)
  let body := s1.takeWhile (fun c => c != ']')
  if body.contains '\\' then none
  else
    match s1.drop body.length with
    | ']' :: r => some (neg, body, r)
    | _ => none

/-- Parser for the modelled regex subset (the body between the
anchors): literal characters, dot, character classes, and a postfix
star applied to the preceding atom. A star with nothing to repeat is a
SyntaxError in JS, modelled by none. Metacharacters outside the subset
producible by the glob conversion (backslash, parentheses, plus,
question mark, bar, braces, caret, dollar) are rejected; JS assigns
meaning to some of them, but none of the theorems below depend on an
input containing them being accepted or rejected. Fuel is the input
length; every step consumes at least one character. -/
def parseRegexAux : Nat → List Char → List RPiece → Option (List RPiece)
  | _, [], acc => some acc.reverse
  | 0, _, _ => none
  | fuel + 1, '*' :: rest, acc =>
    (match acc with
     | RPiece.once a :: acc2 => parseRegexAux fuel rest (RPiece.star a :: acc2)
     | _ => none)
  | fuel + 1, '[' :: rest, acc =>
    (match parseClass rest with
     | some (neg, cs, rest2) =>
       parseRegexAux fuel rest2 (RPiece.once (RAtom.cls neg cs) :: acc)
     | none => none)
  | fuel + 1, '.' :: rest, acc => parseRegexAux fuel rest (RPiece.once RAtom.anyChar :: acc)
  | fuel + 1, c :: rest, acc =>
    if c = '\\' || c = '(' || c = ')' || c = '|' || c = '+' || c = '?'
        || c = '\x7b' || c = '\x7d' || c = '^' || c = '$' then none
    else parseRegexAux fuel rest (RPiece.once (RAtom.lit c) :: acc)

/-- new RegExp on a fully anchored source string (the source always
builds caret, body, dollar): succeeds exactly when the body parses in
the modelled subset. -/
def compileRegex (s : List Char) : Option (List RPiece) :=
  match s with
  | '^' :: rest =>
    (match rest.getLast? with
     | some '$' => parseRegexAux rest.length rest.dropLast []
     | _ => none)
  | _ => none

/-- Whether an atom matches one character; the dot of a JS regex
without the dotAll flag matches everything except a line terminator
(newline, carriage return, U+2028, U+2029), while a character class
matches terminators unless they are listed. -/
def atomMatch : RAtom → Char → Bool
  | RAtom.lit c, d => c == d
  | RAtom.anyChar, d => !isLineTerm d
  | RAtom.cls neg cs, d => if neg then !(cs.contains d) else cs.contains d

/-- Anchored matching of a piece list against a string, with full
backtracking, so the boolean result is match existence — identical for
greedy and lazy stars, which only differ in capture positions. Fuel
bounds the recursion depth; every call decreases the combined length of
the pieces and the string, so the initial fuel below suffices. -/
def rmatch : Nat → List RPiece → List Char → Bool
  | 0, _, _ => false
  | _ + 1, [], s => s.isEmpty
  | fuel + 1, RPiece.once a :: ps, s =>
    (match s with
     | [] => false
     | c :: cs => atomMatch a c && rmatch fuel ps cs)
  | fuel + 1, RPiece.star a :: ps, s =>
    rmatch fuel ps s ||
      (match s with
       | [] => false
       | c :: cs => atomMatch a c && rmatch fuel (RPiece.star a :: ps) cs)

/-- RegExp.prototype.test for a compiled piece list. -/
def regexTest (ps : List RPiece) (s : List Char) : Bool :=
  rmatch (ps.length + s.length + 1) ps s

/-- matchesPattern (src/collab.ts lines 350-358). none models the
SyntaxError thrown by new RegExp on an invalid converted pattern — the
function has no try/catch. On success the path is tested as-is, and
with backslashes replaced by forward slashes. -/
def matchesPattern (filePath pattern : String) : Option Bool :=
  match compileRegex ('^' :: globToRegexStr pattern ++ ['$']) with
  | none => none
  | some r =>
    some (regexTest r filePath.data
      || regexTest r (filePath.data.map (fun c => if c = '\\' then '/' else c)))

/- ============================================================
   Trust resolution (src/collab.ts lines 360-471).
   ============================================================ -/

/-- filePath.replace of backslashes by forward slashes. -/
def jsNorm (p : String) : List Char :=
  p.data.map (fun c => if c = '\\' then '/' else c)

/-- The TrustResult built from an overlapping trust-carrying inline
record in tier 1. -/
def annRes (a : ParsedAnn) (t : TrustLevel) : TrustResult :=
  { level := t
    reason := some "Inline @collab annotation"
    owner := a.owner
    intent := a.intent
    constraints := a.constraints
    source := some "annotation" }

/-- Tier 1 loop: first parsed record whose inclusive range overlaps the
queried range and which carries a trust value wins; an overlapping
record without a trust value is skipped, not terminal. -/
def annTier : List ParsedAnn → Nat → Option Nat → Option TrustResult
  | [], _, _ => none
  | a :: rest, ls, le =>
    if ls ≤ a.line_end ∧ le.getD ls ≥ a.line_start then
      match a.trust with
      | some t => some (annRes a t)
      | none => annTier rest ls le
    else annTier rest ls le

/-- Tier 2 loop: first configured region whose file matches the
normalized path by suffix or equality and whose range overlaps wins; a
region whose file matches but whose lines do not overlap is skipped. -/
def regionTier : List RegionOverride → List Char → Nat → Option Nat →
    Option TrustResult
  | [], _, _, _ => none
  | r :: rest, np, ls, le =>
    let rf := jsNorm r.file
    if endsWithL np rf || np = rf then
      if ls ≤ r.line_end ∧ le.getD ls ≥ r.line_start then
        some { level := r.trust, reason := r.reason, source := some "region" }
      else regionTier rest np ls le
    else regionTier rest np ls le

/-- Tier 3 loop: first policy whose pattern matches wins; a pattern
whose conversion does not compile propagates the thrown SyntaxError
(outer none). some none means the loop finished with no match. -/
def policyTier : List TrustPolicy → List Char → Option (Option TrustResult)
  | [], _ => some none
  | p :: rest, np =>
    match matchesPattern (String.mk np) p.pattern with
    | none => none
    | some true =>
      some (some { level := p.trust, reason := p.reason, owner := p.owner,
                   source := some "policy" })
    | some false => policyTier rest np

/-- Tiers 3 and 4: policies in order, then the default decision. -/
def policyDefault (config : TrustConfig) (np : List Char) : Option TrustResult :=
  match policyTier config.policies np with
  | none => none
  | some (some r) => some r
  | some none =>
    some { level := config.default_trust, reason := some "Default trust level",
           source := some "default" }

/-- getTrustLevel (src/collab.ts lines 426-471): region tier (only when
regions are configured and a line range is supplied), then policies,
then the default. The outer Option models the uncaught SyntaxError of
matchesPattern. -/
def getTrustLevel (config : TrustConfig) (filePath : String)
    (lineStart lineEnd : Option Nat) : Option TrustResult :=
  let np := jsNorm filePath
  match (match config.regions, lineStart with
         | some rs, some ls => regionTier rs np ls lineEnd
         | _, _ => none) with
  | some r => some r
  | none => policyDefault config np

/-- getTrustLevelWithAnnotations (src/collab.ts lines 360-424): the
annotation tier first (only when a line range is supplied; the file is
re-parsed), then exactly the region/policy/default sequence of
getTrustLevel. The file content is passed explicitly (see
parseAnnotations). -/
def getTrustLevelWithAnnotations (config : TrustConfig)
    (content : Option String) (filePath : String)
    (lineStart lineEnd : Option Nat) : Option TrustResult :=
  let np := jsNorm filePath
  match (match lineStart with
         | some ls => annTier (parseAnnotations content filePath) ls lineEnd
         | none => none) with
  | some r => some r
  | none =>
    match (match config.regions, lineStart with
           | some rs, some ls => regionTier rs np ls lineEnd
           | _, _ => none) with
    | some r => some r
    | none => policyDefault config np

/- ============================================================
   Lemmas about the three resolution tiers.
   ============================================================ -/

/-- Tier-1 hit: the queried inclusive range overlaps the record's range
and the record carries a trust value. -/
abbrev annHit (ls : Nat) (le : Option Nat) (a : ParsedAnn) : Prop :=
  ls ≤ a.line_end ∧ le.getD ls ≥ a.line_start ∧ a.trust.isSome = true

/-- Tier-2 hit: the region's file matches the normalized path by suffix
or equality, and the ranges overlap. -/
abbrev regionHit (np : List Char) (ls : Nat) (le : Option Nat)
    (r : RegionOverride) : Prop :=
  (endsWithL np (jsNorm r.file) = true ∨ np = jsNorm r.file) ∧
    ls ≤ r.line_end ∧ le.getD ls ≥ r.line_start

/- ============================================================
   Lemmas about scope detection.
   ============================================================ -/

/-- Net brace count of one line: opening braces minus closing braces. -/
def lineDelta : List Char → Int
  | [] => 0
  | c :: r => (if c = '\x7b' then 1 else if c = '\x7d' then -1 else 0) + lineDelta r

/-- Whether a line contains at least one opening brace. -/
def lineHasOpen : List Char → Bool
  | [] => false
  | c :: r => c == '\x7b' || lineHasOpen r

/-- Cumulative brace count over the first k+1 lines of a suffix. -/
def sliceDelta (suf : List (List Char)) (k : Nat) : Int :=
  ((suf.take (k + 1)).map lineDelta).sum

/-- Whether an opening brace occurs in the first k+1 lines of a suffix. -/
def sliceOpen (suf : List (List Char)) (k : Nat) : Bool :=
  (suf.take (k + 1)).any lineHasOpen

/-- The stop condition of the brace loop at offset k of a scan that
started with counter cnt and seen-an-open flag fnd. -/
def braceGood (cnt : Int) (fnd : Bool) (suf : List (List Char)) (k : Nat) : Prop :=
  (fnd || sliceOpen suf k) = true ∧ cnt + sliceDelta suf k = 0

/-- The claim-level stop condition at absolute line index i of a brace
scan that starts at the definition line d: the running counter over
lines d..i is zero and an opening brace occurred in lines d..i. -/
abbrev braceZero (lines : List (List Char)) (d i : Nat) : Prop :=
  sliceOpen (lines.drop d) (i - d) = true ∧ sliceDelta (lines.drop d) (i - d) = 0

/- ============================================================
   Concrete scenario data used by the claims.
   ============================================================ -/

/-- A TypeScript file whose annotated function spans lines 2-4. -/
def c1Content : String :=
  "// @collab trust=\x22READ_ONLY\x22\nfunction f() \x7b\n  x();\n\x7d"

/-- A configuration whose region override and policy both cover the
same file and lines as the inline marker of c1Content. -/
def c1Config : TrustConfig :=
  { default_trust := TrustLevel.SUPERVISED
    policies := [{ pattern := "**/auth/**", trust := TrustLevel.SUGGEST_ONLY }]
    regions := some [{ file := "src/auth/login.ts", line_start := 1, line_end := 10,
                       trust := TrustLevel.AUTONOMOUS }] }

/-- An empty explicit block: begin immediately followed by end. -/
def c5cexContent : String :=
  "// @collab:begin trust=\x22READ_ONLY\x22\n// @collab:end"

/-- Configuration with well-formed glob patterns used to witness C2. -/
def c2Config : TrustConfig :=
  { default_trust := TrustLevel.SUPERVISED
    policies := [{ pattern := "**/test/**", trust := TrustLevel.AUTONOMOUS },
                 { pattern := "src/core/**", trust := TrustLevel.SUGGEST_ONLY }] }

/-- A file whose only marker carries an owner but no trust value. -/
def c10Content : String :=
  "// @collab owner=\x22x\x22\nfunction f() \x7b\n\x7d"

/-- The spec's four-line brace example. -/
def c6lines : List (List Char) :=
  ["// @collab trust=\x22READ_ONLY\x22".data,
   "function f() \x7b".data,
   "  if (x) \x7b y(); \x7d".data,
   "\x7d".data]

/-- A file whose function brace is never closed. -/
def c9lines : List (List Char) :=
  ["// @collab trust=\x22READ_ONLY\x22".data,
   "function f() \x7b".data,
   "  x();".data]

/-- Two consecutive marker lines carrying trust and owner. -/
def c7aContent : String :=
  "// @collab trust=\x22SUGGEST_ONLY\x22\n// @collab owner=\x22auth-team\x22\nfunction g() \x7b\n  y();\n\x7d"

/-- Two consecutive marker lines with a duplicate key. -/
def c7bContent : String :=
  "// @collab trust=\x22SUGGEST_ONLY\x22\n// @collab trust=\x22READ_ONLY\x22\nfunction g() \x7b\n\x7d"

/-- The same logical file in LF and in CR line endings. -/
def c8lfContent : String := "// @collab trust=\x22READ_ONLY\x22\nfoo()"

/-- CR-encoded variant of c8lfContent. -/
def c8crContent : String := "// @collab trust=\x22READ_ONLY\x22\rfoo()"

/-- CRLF-encoded variant of c8lfContent. -/
def c8crlfContent : String := "// @collab trust=\x22READ_ONLY\x22\r\nfoo()"

/-- The lines of c7aContent as a line array. -/
def c7aLines : List (List Char) :=
  ["// @collab trust=\x22SUGGEST_ONLY\x22".data,
   "// @collab owner=\x22auth-team\x22".data,
   "function g() \x7b".data,
   "  y();".data,
   "\x7d".data]

/-- The continuation condition of the multi-line collection loop, which
is also the condition under which the main parse loop enters its
single-line branch: the line matches ANNOTATION_PATTERN and is neither
a block begin nor a block end. -/
def isMarker (l : List Char) : Bool :=
  (annotationExec l).isSome && !blockBeginTest l && !blockEndTest l

/-- The ANNOTATION_PATTERN capture of line j (meaningful on marker
lines; the default is irrelevant elsewhere). -/
def capOf (lines : List (List Char)) (j : Nat) : List Char :=
  (annotationExec (lines.getD j [])).getD []

/-- Left-to-right Object.assign union of the attributes of lines j..m
onto acc: later duplicate keys overwrite earlier ones. -/
def foldAttrs (acc : AttrAcc) (lines : List (List Char)) (j m : Nat) : AttrAcc :=
  ((List.range (m + 1 - j)).map
    (fun k => parseAttributes (capOf lines (j + k)))).foldl mergeAttrs acc

/-- The merged attributes of a marker run starting at line i whose last
marker line is m: line i's attributes overwritten in order by those of
lines i+1 through m. -/
def mergedAttrs (lines : List (List Char)) (i m : Nat) : AttrAcc :=
  foldAttrs (parseAttributes (capOf lines i)) lines (i + 1) m

theorem annTier_eq_none_iff (anns : List ParsedAnn) (ls : Nat) (le : Option Nat) :
    annTier anns ls le = none ↔ ∀ a ∈ anns, ¬ annHit ls le a := by
  induction anns with
  | nil => simp [annTier]
  | cons a rest ih =>
    simp only [annTier]
    by_cases hov : ls ≤ a.line_end ∧ le.getD ls ≥ a.line_start
    · rw [if_pos hov]
      cases ht : a.trust with
      | some t =>
        constructor
        · intro h; exact absurd h (by simp)
        · intro h
          exact absurd ⟨hov.1, hov.2, by simp [ht]⟩ (h a (List.mem_cons_self a rest))
      | none =>
        rw [ih]
        constructor
        · intro h b hb
          rcases List.mem_cons.mp hb with hb | hb
          · subst hb; intro hc; simp [annHit, ht] at hc
          · exact h b hb
        · intro h b hb; exact h b (List.mem_cons_of_mem a hb)
    · rw [if_neg hov, ih]
      constructor
      · intro h b hb
        rcases List.mem_cons.mp hb with hb | hb
        · subst hb; intro hc; exact hov ⟨hc.1, hc.2.1⟩
        · exact h b hb
      · intro h b hb; exact h b (List.mem_cons_of_mem a hb)

theorem annTier_of_find (anns : List ParsedAnn) (ls : Nat) (le : Option Nat)
    (a : ParsedAnn) (t : TrustLevel)
    (hf : anns.find? (fun a => decide (annHit ls le a)) = some a)
    (ht : a.trust = some t) :
    annTier anns ls le = some (annRes a t) := by
  induction anns with
  | nil => simp at hf
  | cons b rest ih =>
    by_cases hb : annHit ls le b
    · rw [List.find?_cons_of_pos _ (by simpa using hb)] at hf
      injection hf with hba
      subst hba
      have hov : ls ≤ b.line_end ∧ le.getD ls ≥ b.line_start := ⟨hb.1, hb.2.1⟩
      simp [annTier, if_pos hov, ht]
    · rw [List.find?_cons_of_neg _ (by simpa using hb)] at hf
      simp only [annTier]
      by_cases hov : ls ≤ b.line_end ∧ le.getD ls ≥ b.line_start
      · rw [if_pos hov]
        cases htb : b.trust with
        | some t2 => exact absurd ⟨hov.1, hov.2, by simp [htb]⟩ hb
        | none => exact ih hf
      · rw [if_neg hov]; exact ih hf

theorem annTier_source (anns : List ParsedAnn) (ls : Nat) (le : Option Nat)
    (r : TrustResult) (h : annTier anns ls le = some r) :
    r.source = some "annotation" := by
  induction anns with
  | nil => simp [annTier] at h
  | cons a rest ih =>
    simp only [annTier] at h
    by_cases hov : ls ≤ a.line_end ∧ le.getD ls ≥ a.line_start
    · rw [if_pos hov] at h
      cases ht : a.trust with
      | some t => rw [ht] at h; cases h; rfl
      | none => rw [ht] at h; exact ih h
    · rw [if_neg hov] at h; exact ih h

theorem regionTier_eq_none_iff (rs : List RegionOverride) (np : List Char)
    (ls : Nat) (le : Option Nat) :
    regionTier rs np ls le = none ↔ ∀ r ∈ rs, ¬ regionHit np ls le r := by
  induction rs with
  | nil => simp [regionTier]
  | cons r rest ih =>
    simp only [regionTier]
    by_cases hf : (endsWithL np (jsNorm r.file) || decide (np = jsNorm r.file)) = true
    · rw [if_pos hf]
      by_cases hov : ls ≤ r.line_end ∧ le.getD ls ≥ r.line_start
      · rw [if_pos hov]
        constructor
        · intro h; exact absurd h (by simp)
        · intro h
          refine absurd ⟨?_, hov.1, hov.2⟩ (h r (List.mem_cons_self r rest))
          simpa [Bool.or_eq_true, decide_eq_true_eq] using hf
      · rw [if_neg hov, ih]
        constructor
        · intro h b hb
          rcases List.mem_cons.mp hb with hb | hb
          · subst hb; intro hc; exact hov ⟨hc.2.1, hc.2.2⟩
          · exact h b hb
        · intro h b hb; exact h b (List.mem_cons_of_mem r hb)
    · rw [if_neg hf, ih]
      constructor
      · intro h b hb
        rcases List.mem_cons.mp hb with hb | hb
        · subst hb; intro hc
          exact hf (by simpa [Bool.or_eq_true, decide_eq_true_eq] using hc.1)
        · exact h b hb
      · intro h b hb; exact h b (List.mem_cons_of_mem r hb)

theorem regionTier_source (rs : List RegionOverride) (np : List Char)
    (ls : Nat) (le : Option Nat) (r : TrustResult)
    (h : regionTier rs np ls le = some r) : r.source = some "region" := by
  induction rs with
  | nil => simp [regionTier] at h
  | cons rg rest ih =>
    simp only [regionTier] at h
    by_cases hf : (endsWithL np (jsNorm rg.file) || decide (np = jsNorm rg.file)) = true
    · rw [if_pos hf] at h
      by_cases hov : ls ≤ rg.line_end ∧ le.getD ls ≥ rg.line_start
      · rw [if_pos hov] at h; cases h; rfl
      · rw [if_neg hov] at h; exact ih h
    · rw [if_neg hf] at h; exact ih h

theorem policyTier_eq_nomatch_iff (ps : List TrustPolicy) (np : List Char) :
    policyTier ps np = some none ↔
      ∀ p ∈ ps, matchesPattern (String.mk np) p.pattern = some false := by
  induction ps with
  | nil => simp [policyTier]
  | cons p rest ih =>
    simp only [policyTier]
    cases hm : matchesPattern (String.mk np) p.pattern with
    | none =>
      constructor
      · intro h; exact Option.noConfusion h
      · intro h; exact absurd (h p (List.mem_cons_self p rest)) (by simp [hm])
    | some b =>
      cases b with
      | true =>
        constructor
        · intro h; exact Option.noConfusion (Option.some.inj h)
        · intro h; exact absurd (h p (List.mem_cons_self p rest)) (by simp [hm])
      | false =>
        rw [ih]
        constructor
        · intro h b hb
          rcases List.mem_cons.mp hb with hb | hb
          · subst hb; exact hm
          · exact h b hb
        · intro h b hb; exact h b (List.mem_cons_of_mem p hb)

theorem policyTier_source (ps : List TrustPolicy) (np : List Char)
    (r : TrustResult) (h : policyTier ps np = some (some r)) :
    r.source = some "policy" := by
  induction ps with
  | nil => simp [policyTier] at h
  | cons p rest ih =>
    simp only [policyTier] at h
    cases hm : matchesPattern (String.mk np) p.pattern with
    | none => rw [hm] at h; cases h
    | some b =>
      cases b with
      | true => rw [hm] at h; cases h; rfl
      | false => rw [hm] at h; exact ih h

theorem policyTier_total (ps : List TrustPolicy) (np : List Char)
    (h : ∀ p ∈ ps, (compileRegex ('^' :: globToRegexStr p.pattern ++ ['$'])).isSome = true) :
    policyTier ps np ≠ none := by
  induction ps with
  | nil => simp [policyTier]
  | cons p rest ih =>
    simp only [policyTier]
    cases hm : matchesPattern (String.mk np) p.pattern with
    | none =>
      exfalso
      have hc := h p (List.mem_cons_self p rest)
      cases hcr : compileRegex ('^' :: globToRegexStr p.pattern ++ ['$']) with
      | none => rw [hcr] at hc; simp at hc
      | some r =>
        simp only [matchesPattern] at hm
        rw [hcr] at hm
        simp at hm
    | some b =>
      cases b with
      | true => simp
      | false => exact ih (fun q hq => h q (List.mem_cons_of_mem p hq))

theorem braceStep_foldl (l : List Char) : ∀ cnt fnd,
    l.foldl braceStep (cnt, fnd) = (cnt + lineDelta l, fnd || lineHasOpen l) := by
  induction l with
  | nil => intro cnt fnd; simp [lineDelta, lineHasOpen]
  | cons c r ih =>
    intro cnt fnd
    simp only [List.foldl_cons]
    by_cases h1 : c = '\x7b'
    · rw [show braceStep (cnt, fnd) c = (cnt + 1, true) by simp [braceStep, h1], ih]
      simp [lineDelta, lineHasOpen, h1, Prod.ext_iff]
      omega
    · by_cases h2 : c = '\x7d'
      · rw [show braceStep (cnt, fnd) c = (cnt - 1, fnd) by simp [braceStep, h1, h2], ih]
        simp only [lineDelta, lineHasOpen, if_neg h1, if_pos h2, Prod.ext_iff]
        refine ⟨by omega, ?_⟩
        have : (c == '\x7b') = false := by simp [h1]
        simp [this]
      · rw [show braceStep (cnt, fnd) c = (cnt, fnd) by simp [braceStep, h1, h2], ih]
        simp only [lineDelta, lineHasOpen, if_neg h1, if_neg h2, Prod.ext_iff]
        refine ⟨by omega, ?_⟩
        have : (c == '\x7b') = false := by simp [h1]
        simp [this]

theorem braceGood_zero_iff (cnt : Int) (fnd : Bool) (l : List Char)
    (rest : List (List Char)) :
    braceGood cnt fnd (l :: rest) 0 ↔
      ((fnd || lineHasOpen l) = true ∧ cnt + lineDelta l = 0) := by
  simp [braceGood, sliceOpen, sliceDelta]

theorem braceGood_succ_iff (cnt : Int) (fnd : Bool) (l : List Char)
    (rest : List (List Char)) (k : Nat) :
    braceGood cnt fnd (l :: rest) (k + 1) ↔
      braceGood (cnt + lineDelta l) (fnd || lineHasOpen l) rest k := by
  simp only [braceGood, sliceOpen, sliceDelta, List.take_succ_cons, List.any_cons,
    List.map_cons, List.sum_cons]
  constructor
  · rintro ⟨h1, h2⟩
    exact ⟨by simpa [Bool.or_assoc] using h1, by omega⟩
  · rintro ⟨h1, h2⟩
    exact ⟨by simpa [Bool.or_assoc] using h1, by omega⟩

theorem braceScanAux_spec (suf : List (List Char)) : ∀ i cnt fnd d,
    (∃ k, k < suf.length ∧ braceScanAux suf i cnt fnd d = i + k ∧
      braceGood cnt fnd suf k ∧ ∀ k2, k2 < k → ¬ braceGood cnt fnd suf k2) ∨
    (braceScanAux suf i cnt fnd d = d ∧
      ∀ k, k < suf.length → ¬ braceGood cnt fnd suf k) := by
  induction suf with
  | nil =>
    intro i cnt fnd d
    right
    exact ⟨rfl, by simp⟩
  | cons l rest ih =>
    intro i cnt fnd d
    simp only [braceScanAux]
    rw [braceStep_foldl]
    by_cases h0 : ((fnd || lineHasOpen l) && decide (cnt + lineDelta l = 0)) = true
    · left
      refine ⟨0, by simp, ?_, ?_, by omega⟩
      · simp [h0]
      · rw [braceGood_zero_iff]
        constructor
        · exact (Bool.and_eq_true _ _ |>.mp h0).1
        · simpa using (Bool.and_eq_true _ _ |>.mp h0).2
    · have hng : ¬ braceGood cnt fnd (l :: rest) 0 := by
        rw [braceGood_zero_iff]
        intro hc
        exact h0 (by simp [hc.1, hc.2])
      simp only [h0, Bool.false_eq_true, if_false]
      rcases ih (i + 1) (cnt + lineDelta l) (fnd || lineHasOpen l) d with
        ⟨k, hk, heq, hgood, hleast⟩ | ⟨heq, hnone⟩
      · left
        refine ⟨k + 1, by simpa using hk, by omega, ?_, ?_⟩
        · rw [braceGood_succ_iff]; exact hgood
        · intro k2 hk2
          cases k2 with
          | zero => exact hng
          | succ k3 =>
            rw [braceGood_succ_iff]
            exact hleast k3 (by omega)
      · right
        refine ⟨heq, ?_⟩
        intro k hk
        cases k with
        | zero => exact hng
        | succ k3 =>
          rw [braceGood_succ_iff]
          exact hnone k3 (by simpa using hk)

theorem braceScanAux_ge (suf : List (List Char)) : ∀ i cnt fnd d,
    min d i ≤ braceScanAux suf i cnt fnd d := by
  induction suf with
  | nil => intro i cnt fnd d; simp [braceScanAux]
  | cons l rest ih =>
    intro i cnt fnd d
    simp only [braceScanAux]
    split
    · omega
    · have := ih (i + 1) ((l.foldl braceStep (cnt, fnd)).1)
        ((l.foldl braceStep (cnt, fnd)).2) d
      omega

theorem pyEndAux_ge (base : Nat) (suf : List (List Char)) : ∀ i e,
    min e i ≤ pyEndAux base suf i e := by
  induction suf with
  | nil => intro i e; simp [pyEndAux]
  | cons l rest ih =>
    intro i e
    simp only [pyEndAux]
    split
    · have := ih (i + 1) e
      omega
    · split
      · omega
      · have := ih (i + 1) i
        omega

theorem findDefLineAux_spec (suf : List (List Char)) : ∀ i,
    (findDefLineAux suf i = i + suf.length ∧
      ∀ k, k < suf.length → isSubstantive (suf.getD k []) = false) ∨
    (∃ k, k < suf.length ∧ findDefLineAux suf i = i + k ∧
      isSubstantive (suf.getD k []) = true ∧
      ∀ k2, k2 < k → isSubstantive (suf.getD k2 []) = false) := by
  induction suf with
  | nil => intro i; left; exact ⟨by simp [findDefLineAux], by simp⟩
  | cons l rest ih =>
    intro i
    simp only [findDefLineAux]
    by_cases hs : isSubstantive l
    · right
      exact ⟨0, by simp, by simp [hs], by simpa using hs, by omega⟩
    · simp only [hs, if_neg, Bool.false_eq_true, if_false]
      rcases ih (i + 1) with ⟨heq, hnone⟩ | ⟨k, hk, heq, hsub, hleast⟩
      · left
        refine ⟨by simpa [Nat.add_comm, Nat.add_left_comm] using heq, ?_⟩
        intro k hk
        cases k with
        | zero => simpa using hs
        | succ k3 => simpa using hnone k3 (by simpa using hk)
      · right
        refine ⟨k + 1, by simpa using hk, by omega, by simpa using hsub, ?_⟩
        intro k2 hk2
        cases k2 with
        | zero => simpa using hs
        | succ k3 => simpa using hleast k3 (by omega)

theorem findDefLineAux_ge (suf : List (List Char)) : ∀ i,
    i ≤ findDefLineAux suf i := by
  induction suf with
  | nil => intro i; simp [findDefLineAux]
  | cons l rest ih =>
    intro i
    simp only [findDefLineAux]
    split
    · omega
    · have := ih (i + 1); omega

theorem detectScope_le (lines : List (List Char)) (annIdx : Nat) (ext : String) :
    (detectAnnotationScope lines annIdx ext).1 ≤ (detectAnnotationScope lines annIdx ext).2 := by
  unfold detectAnnotationScope
  by_cases h : findDefLine lines (annIdx + 1) ≥ lines.length
  · simp [h]
  · rw [if_neg h]
    by_cases hpy : ext = "py"
    · rw [if_pos hpy]
      have := pyEndAux_ge (indentOf (lines.getD (findDefLine lines (annIdx + 1)) []))
        (lines.drop (findDefLine lines (annIdx + 1) + 1))
        (findDefLine lines (annIdx + 1) + 1) (findDefLine lines (annIdx + 1))
      simp only
      omega
    · rw [if_neg hpy]
      by_cases hbr : braceExts.contains ext = true
      · rw [if_pos hbr]
        have := braceScanAux_ge (lines.drop (findDefLine lines (annIdx + 1)))
          (findDefLine lines (annIdx + 1)) 0 false (findDefLine lines (annIdx + 1))
        simp only [braceScan]
        omega
      · rw [if_neg hbr]

theorem findBlockEndAux_ge (suf : List (List Char)) : ∀ j k,
    findBlockEndAux suf j = some k → j ≤ k := by
  induction suf with
  | nil => intro j k h; simp [findBlockEndAux] at h
  | cons l rest ih =>
    intro j k h
    simp only [findBlockEndAux] at h
    by_cases he : blockEndTest l
    · rw [if_pos he] at h; injection h with h; omega
    · rw [if_neg (by simpa using he)] at h
      have := ih (j + 1) k h
      omega

theorem braceGood_start_iff (lines : List (List Char)) (d k : Nat) :
    braceGood 0 false (lines.drop d) k ↔ braceZero lines d (d + k) := by
  simp [braceGood, braceZero]

theorem getDDrop (lines : List (List Char)) : ∀ (n k : Nat),
    (lines.drop n).getD k [] = lines.getD (n + k) [] := by
  induction lines with
  | nil => intro n k; simp
  | cons l rest ih =>
    intro n k
    cases n with
    | zero => simp
    | succ n2 =>
      have : n2 + 1 + k = n2 + k + 1 := by omega
      simp [this, ih n2 k]

theorem braceScan_lines (lines : List (List Char)) (d : Nat) :
    (d ≤ braceScan lines d ∧ braceScan lines d < lines.length ∧
      braceZero lines d (braceScan lines d) ∧
      ∀ i, d ≤ i → i < braceScan lines d → ¬ braceZero lines d i) ∨
    (braceScan lines d = d ∧
      ∀ i, d ≤ i → i < lines.length → ¬ braceZero lines d i) := by
  rcases braceScanAux_spec (lines.drop d) d 0 false d with
    ⟨k, hk, heq, hgood, hleast⟩ | ⟨heq, hnone⟩
  · left
    rw [List.length_drop] at hk
    unfold braceScan
    rw [heq]
    refine ⟨by omega, by omega, ?_, ?_⟩
    · rw [show d + k = d + k from rfl] at *
      exact (braceGood_start_iff lines d k).mp hgood
    · intro i hdi hik
      intro hz
      have hk2 : i - d < k := by omega
      refine hleast (i - d) hk2 ?_
      rw [braceGood_start_iff]
      have : d + (i - d) = i := by omega
      rw [this]
      exact hz
  · right
    unfold braceScan
    rw [heq]
    refine ⟨rfl, ?_⟩
    intro i hdi hil hz
    have hk : i - d < (lines.drop d).length := by
      rw [List.length_drop]; omega
    refine hnone (i - d) hk ?_
    rw [braceGood_start_iff]
    have : d + (i - d) = i := by omega
    rw [this]
    exact hz

theorem findDefLine_first (lines : List (List Char)) (i d : Nat)
    (h : findDefLine lines i = d) (hlt : d < lines.length) :
    isSubstantive (lines.getD d []) = true ∧
      ∀ j, i ≤ j → j < d → isSubstantive (lines.getD j []) = false := by
  unfold findDefLine at h
  rcases findDefLineAux_spec (lines.drop i) i with ⟨heq, hnone⟩ | ⟨k, hk, heq, hsub, hleast⟩
  · exfalso
    rw [heq, List.length_drop] at h
    omega
  · rw [heq] at h
    subst h
    constructor
    · rw [← getDDrop]; exact hsub
    · intro j hij hjk
      have : isSubstantive ((lines.drop i).getD (j - i) []) = false :=
        hleast (j - i) (by omega)
      rw [getDDrop] at this
      have hji : i + (j - i) = j := by omega
      rw [hji] at this
      exact this

/-- Invariant of the main parse loop: every produced record satisfies
line_start less-or-equal line_end + 1. -/
theorem parseLoop_inv (lines : List (List Char)) (ext : String) : ∀ fuel i a,
    a ∈ parseLoop lines ext fuel i → a.line_start ≤ a.line_end + 1 := by
  intro fuel
  induction fuel with
  | zero => intro i a h; simp [parseLoop] at h
  | succ fuel ih =>
    intro i a h
    simp only [parseLoop] at h
    by_cases hi : i < lines.length
    · rw [if_pos hi] at h
      cases hbb : blockBeginExec (lines.getD i []) with
      | some cap =>
        rw [hbb] at h
        cases hfe : findBlockEnd lines (i + 1) with
        | some j =>
          rw [hfe] at h
          rcases List.mem_cons.mp h with h | h
          · subst h
            have := findBlockEndAux_ge (lines.drop (i + 1)) (i + 1) j hfe
            simp [mkAnn]
            omega
          · exact ih _ _ h
        | none =>
          rw [hfe] at h
          rcases List.mem_cons.mp h with h | h
          · subst h; simp [mkAnn]
          · exact ih _ _ h
      | none =>
        rw [hbb] at h
        cases hae : annotationExec (lines.getD i []) with
        | some cap =>
          rw [hae] at h
          have h2 : a ∈ (if blockEndTest (lines.getD i []) = true
              then parseLoop lines ext fuel (i + 1)
              else
                mkAnn (collectMulti lines (parseAttributes cap) (i + 1) i).1
                  (detectAnnotationScope lines
                    (collectMulti lines (parseAttributes cap) (i + 1) i).2 ext).1
                  (detectAnnotationScope lines
                    (collectMulti lines (parseAttributes cap) (i + 1) i).2 ext).2 ::
                  parseLoop lines ext fuel
                    ((collectMulti lines (parseAttributes cap) (i + 1) i).2 + 1)) := h
          by_cases hbe : blockEndTest (lines.getD i []) = true
          · rw [if_pos hbe] at h2
            exact ih _ _ h2
          · rw [if_neg hbe] at h2
            rcases List.mem_cons.mp h2 with h2 | h2
            · subst h2
              have := detectScope_le lines
                (collectMulti lines (parseAttributes cap) (i + 1) i).2 ext
              simp [mkAnn]
              omega
            · exact ih _ _ h2
        | none =>
          rw [hae] at h
          exact ih _ _ h
    · rw [if_neg hi] at h
      simp at h

/- ============================================================
   Unfolding equations for the resolvers and tier-composition
   helper lemmas.
   ============================================================ -/

theorem resolveWith_eq (cfg : TrustConfig) (content : Option String)
    (path : String) (ls : Nat) (le : Option Nat) :
    getTrustLevelWithAnnotations cfg content path (some ls) le =
      (match annTier (parseAnnotations content path) ls le with
       | some r => some r
       | none =>
         match (match cfg.regions with
                | some rs => regionTier rs (jsNorm path) ls le
                | none => none) with
         | some r => some r
         | none => policyDefault cfg (jsNorm path)) := by
  obtain ⟨dt, pols, regs⟩ := cfg
  cases regs <;> rfl

theorem getTrustLevel_eq (cfg : TrustConfig) (path : String) (ls : Nat)
    (le : Option Nat) :
    getTrustLevel cfg path (some ls) le =
      (match (match cfg.regions with
              | some rs => regionTier rs (jsNorm path) ls le
              | none => none) with
       | some r => some r
       | none => policyDefault cfg (jsNorm path)) := by
  obtain ⟨dt, pols, regs⟩ := cfg
  cases regs <;> rfl

theorem resolveWithNone_eq (cfg : TrustConfig) (content : Option String)
    (path : String) (le : Option Nat) :
    getTrustLevelWithAnnotations cfg content path none le =
      policyDefault cfg (jsNorm path) := by
  obtain ⟨dt, pols, regs⟩ := cfg
  cases regs <;> rfl

theorem getTrustLevelNone_eq (cfg : TrustConfig) (path : String) (le : Option Nat) :
    getTrustLevel cfg path none le = policyDefault cfg (jsNorm path) := by
  obtain ⟨dt, pols, regs⟩ := cfg
  cases regs <;> rfl

theorem policyDefault_default (cfg : TrustConfig) (np : List Char) (r : TrustResult)
    (h : policyDefault cfg np = some r) (hs : r.source = some "default") :
    ∀ p ∈ cfg.policies, matchesPattern (String.mk np) p.pattern = some false := by
  cases hP : policyTier cfg.policies np with
  | none => simp [policyDefault, hP] at h
  | some o =>
    cases o with
    | some r3 =>
      have h3 := policyTier_source _ _ _ hP
      simp only [policyDefault, hP] at h
      rw [Option.some.inj h] at h3
      exact absurd (h3.symm.trans hs) (by decide)
    | none => exact (policyTier_eq_nomatch_iff _ _).mp hP

theorem policyDefault_total (cfg : TrustConfig) (np : List Char)
    (h : ∀ p ∈ cfg.policies,
      (compileRegex ('^' :: globToRegexStr p.pattern ++ ['$'])).isSome = true) :
    ∃ r, policyDefault cfg np = some r := by
  cases hP : policyTier cfg.policies np with
  | none => exact absurd hP (policyTier_total _ _ h)
  | some o =>
    cases o with
    | some r3 => exact ⟨r3, by simp [policyDefault, hP]⟩
    | none =>
      refine ⟨{ level := cfg.default_trust, reason := some "Default trust level",
                source := some "default" }, ?_⟩
      simp [policyDefault, hP]

/- ============================================================
   Claims.
   ============================================================ -/

/-- C1: four-tier precedence of trust resolution. (i) When the ordered
scan of the parsed file records finds a first one that overlaps the
queried range and carries a trust value, the resolver returns exactly
that record's trust with source "annotation". (ii) A result with source
"region" implies no overlapping trust-carrying record exists. (iii) A
result with source "policy" implies neither an overlapping
trust-carrying record nor a matching overlapping region exists. (iv) A
result with source "default" implies no policy pattern matches. -/
theorem claim_C1_precedence :
    (∀ (cfg : TrustConfig) (content : Option String) (path : String) (ls : Nat)
        (le : Option Nat) (a : ParsedAnn) (t : TrustLevel),
      (parseAnnotations content path).find? (fun a => decide (annHit ls le a)) = some a →
      a.trust = some t →
      getTrustLevelWithAnnotations cfg content path (some ls) le = some (annRes a t)) ∧
    (∀ (cfg : TrustConfig) (content : Option String) (path : String) (ls : Nat)
        (le : Option Nat) (r : TrustResult),
      getTrustLevelWithAnnotations cfg content path (some ls) le = some r →
      r.source = some "region" →
      ∀ a ∈ parseAnnotations content path, ¬ annHit ls le a) ∧
    (∀ (cfg : TrustConfig) (content : Option String) (path : String) (ls : Nat)
        (le : Option Nat) (r : TrustResult),
      getTrustLevelWithAnnotations cfg content path (some ls) le = some r →
      r.source = some "policy" →
      (∀ a ∈ parseAnnotations content path, ¬ annHit ls le a) ∧
      (∀ rg ∈ cfg.regions.getD [], ¬ regionHit (jsNorm path) ls le rg)) ∧
    (∀ (cfg : TrustConfig) (content : Option String) (path : String) (ls : Nat)
        (le : Option Nat) (r : TrustResult),
      getTrustLevelWithAnnotations cfg content path (some ls) le = some r →
      r.source = some "default" →
      ∀ p ∈ cfg.policies, matchesPattern (String.mk (jsNorm path)) p.pattern = some false) := by
  refine ⟨?_, ?_, ?_, ?_⟩
  · intro cfg content path ls le a t hf ht
    rw [resolveWith_eq, annTier_of_find _ _ _ _ _ hf ht]
  · intro cfg content path ls le r hres hsrc
    cases hA : annTier (parseAnnotations content path) ls le with
    | some r2 =>
      exfalso
      rw [resolveWith_eq] at hres
      simp only [hA] at hres
      have h2 := annTier_source _ _ _ _ hA
      rw [Option.some.inj hres] at h2
      exact absurd (h2.symm.trans hsrc) (by decide)
    | none => exact (annTier_eq_none_iff _ _ _).mp hA
  · intro cfg content path ls le r hres hsrc
    cases hA : annTier (parseAnnotations content path) ls le with
    | some r2 =>
      exfalso
      rw [resolveWith_eq] at hres
      simp only [hA] at hres
      have h2 := annTier_source _ _ _ _ hA
      rw [Option.some.inj hres] at h2
      exact absurd (h2.symm.trans hsrc) (by decide)
    | none =>
      refine ⟨(annTier_eq_none_iff _ _ _).mp hA, ?_⟩
      cases hregs : cfg.regions with
      | none => intro rg hrg; simp [hregs] at hrg
      | some rs =>
        cases hR : regionTier rs (jsNorm path) ls le with
        | some r3 =>
          exfalso
          rw [resolveWith_eq] at hres
          simp only [hA, hregs, hR] at hres
          have h3 := regionTier_source _ _ _ _ _ hR
          rw [Option.some.inj hres] at h3
          exact absurd (h3.symm.trans hsrc) (by decide)
        | none =>
          intro rg hrg
          exact (regionTier_eq_none_iff rs (jsNorm path) ls le).mp hR rg
            (by simpa [hregs] using hrg)
  · intro cfg content path ls le r hres hsrc
    cases hA : annTier (parseAnnotations content path) ls le with
    | some r2 =>
      exfalso
      rw [resolveWith_eq] at hres
      simp only [hA] at hres
      have h2 := annTier_source _ _ _ _ hA
      rw [Option.some.inj hres] at h2
      exact absurd (h2.symm.trans hsrc) (by decide)
    | none =>
      rw [resolveWith_eq] at hres
      simp only [hA] at hres
      cases hregs : cfg.regions with
      | none =>
        simp only [hregs] at hres
        exact policyDefault_default cfg _ r hres hsrc
      | some rs =>
        simp only [hregs] at hres
        cases hR : regionTier rs (jsNorm path) ls le with
        | some r3 =>
          exfalso
          simp only [hR] at hres
          have h3 := regionTier_source _ _ _ _ _ hR
          rw [Option.some.inj hres] at h3
          exact absurd (h3.symm.trans hsrc) (by decide)
        | none =>
          simp only [hR] at hres
          exact policyDefault_default cfg _ r hres hsrc

/-- Witness for C1 at the spec's own scenario: an inline marker with
trust READ_ONLY, a region override with trust AUTONOMOUS and a policy
with trust SUGGEST_ONLY all cover lines 2-3 of src/auth/login.ts; the
resolver returns READ_ONLY with source "annotation". -/
theorem claim_C1_precedence_witness :
    getTrustLevelWithAnnotations c1Config (some c1Content) "src/auth/login.ts"
        (some 2) (some 3)
      = some { level := TrustLevel.READ_ONLY,
               reason := some "Inline @collab annotation",
               source := some "annotation" } := by
  have h := claim_C1_precedence.1 c1Config (some c1Content) "src/auth/login.ts" 2 (some 3)
    { trust := some TrustLevel.READ_ONLY, line_start := 2, line_end := 4 }
    TrustLevel.READ_ONLY (by decide) (by decide)
  exact h

/-- C2 counterexample: a pattern with an unbalanced bracket (the spec's
own example of a malformed pattern) makes new RegExp throw inside
matchesPattern — there is no try/catch — so matchesPattern does not
return a boolean, and the resolver propagates the exception instead of
returning a decision. -/
theorem claim_C2_cex :
    matchesPattern "src/x.ts" "a[" = none ∧
    getTrustLevelWithAnnotations
      { default_trust := TrustLevel.SUPERVISED,
        policies := [{ pattern := "a[", trust := TrustLevel.AUTONOMOUS }] }
      none "src/x.ts" none none = none := by decide

/-- C2 amended: matchesPattern returns a boolean for every pattern
whose converted regular expression compiles; when every policy pattern
compiles, the resolver returns exactly one decision and its level is
one of the four enumeration values. A pattern whose conversion does not
compile (such as one with an unbalanced bracket) makes both throw. -/
theorem claim_C2_totality :
    (∀ (path pattern : String),
      (compileRegex ('^' :: globToRegexStr pattern ++ ['$'])).isSome = true →
      ∃ b, matchesPattern path pattern = some b) ∧
    (∀ (cfg : TrustConfig) (content : Option String) (path : String)
        (ls le : Option Nat),
      (∀ p ∈ cfg.policies,
        (compileRegex ('^' :: globToRegexStr p.pattern ++ ['$'])).isSome = true) →
      ∃ r, getTrustLevelWithAnnotations cfg content path ls le = some r ∧
        (r.level = TrustLevel.AUTONOMOUS ∨ r.level = TrustLevel.SUGGEST_ONLY ∨
         r.level = TrustLevel.READ_ONLY ∨ r.level = TrustLevel.SUPERVISED)) := by
  constructor
  · intro path pattern h
    cases hcr : compileRegex ('^' :: globToRegexStr pattern ++ ['$']) with
    | none => rw [hcr] at h; simp at h
    | some r =>
      exact ⟨regexTest r path.data
          || regexTest r (path.data.map (fun c => if c = '\\' then '/' else c)),
        by simp only [matchesPattern, hcr]⟩
  · intro cfg content path ls le hp
    have hfour : ∀ x : TrustResult,
        x.level = TrustLevel.AUTONOMOUS ∨ x.level = TrustLevel.SUGGEST_ONLY ∨
          x.level = TrustLevel.READ_ONLY ∨ x.level = TrustLevel.SUPERVISED := by
      intro x; cases x.level <;> simp
    cases ls with
    | none =>
      obtain ⟨r, hr⟩ := policyDefault_total cfg (jsNorm path) hp
      exact ⟨r, by rw [resolveWithNone_eq, hr], hfour r⟩
    | some l =>
      cases hA : annTier (parseAnnotations content path) l le with
      | some r =>
        refine ⟨r, ?_, hfour r⟩
        rw [resolveWith_eq]
        simp only [hA]
      | none =>
        cases hregs : cfg.regions with
        | none =>
          obtain ⟨r, hr⟩ := policyDefault_total cfg (jsNorm path) hp
          refine ⟨r, ?_, hfour r⟩
          rw [resolveWith_eq]
          simp only [hA, hregs, hr]
        | some rs =>
          cases hR : regionTier rs (jsNorm path) l le with
          | some r =>
            refine ⟨r, ?_, hfour r⟩
            rw [resolveWith_eq]
            simp only [hA, hregs, hR]
          | none =>
            obtain ⟨r, hr⟩ := policyDefault_total cfg (jsNorm path) hp
            refine ⟨r, ?_, hfour r⟩
            rw [resolveWith_eq]
            simp only [hA, hregs, hR, hr]

/-- Witness for C2: on a configuration whose patterns all compile, the
resolver produces a decision. -/
theorem claim_C2_totality_witness :
    (getTrustLevelWithAnnotations c2Config none "lib/a.ts" none none).isSome = true := by
  obtain ⟨r, hr, -⟩ := claim_C2_totality.2 c2Config none "lib/a.ts" none none (by decide)
  simp [hr]

/-- C3 counterexample: the claim predicts that the double-star pattern
crosses path separators, so that a path with two directories above the
auth segment matches; the code's converted regex rejects it. -/
theorem claim_C3_cex :
    matchesPattern "a/b/auth/c.ts" "**/auth/**" = some true ↔ False := by decide

/-- C3 amended: the conversion first rewrites double-star to dot-star,
but the following global single-star rewrite also transforms the star
just inserted, so double-star effectively compiles to dot followed by
zero-or-more non-separators (at most one leading separator can be
crossed, via the dot). Single star maps to zero-or-more non-separators,
the question mark to a single dot, and the regex is anchored to the
whole path: a double-star pattern therefore matches paths with exactly
one directory level in place of each double-star, not arbitrary
depth. -/
theorem claim_C3_conversion :
    String.mk (globToRegexStr "**/auth/**") = ".[^/]*/auth/.[^/]*" ∧
    String.mk (globToRegexStr "a*b") = "a[^/]*b" ∧
    String.mk (globToRegexStr "a?b") = "a.b" ∧
    matchesPattern "src/auth/login.ts" "**/auth/**" = some true ∧
    matchesPattern "a/b/auth/c.ts" "**/auth/**" = some false ∧
    matchesPattern "aXb" "a?b" = some true ∧
    matchesPattern "ab" "a?b" = some false ∧
    matchesPattern "ab/c" "a*b" = some false ∧
    matchesPattern "xab" "a*b" = some false := by decide

/-- C4: the spec's two concrete glob outcomes hold on the code: the
auth pattern accepts src/auth/login.ts and, being anchored, rejects the
partial segment of src/authorization/x.ts. -/
theorem claim_C4_glob_concrete :
    matchesPattern "src/auth/login.ts" "**/auth/**" = some true ∧
    matchesPattern "src/authorization/x.ts" "**/auth/**" = some false := by decide

/-- C5 counterexample: a begin tag immediately followed by an end tag
produces a record with line_start = 2 and line_end = 1, violating
line_start less-or-equal line_end (the unclosed-begin case produces the
same inversion). -/
theorem claim_C5_cex :
    ¬ (∀ a ∈ parseAnnotations (some c5cexContent) "f.ts",
        a.line_start ≤ a.line_end) := by decide

/-- C5 amended: every record satisfies line_start less-or-equal
line_end + 1, and every scope computed by detectAnnotationScope (hence
every single-line or merged multi-line marker) satisfies the stronger
line_start less-or-equal line_end; only an explicit block that is empty
or unclosed produces the degenerate line_start = line_end + 1. -/
theorem claim_C5_invariant :
    (∀ (content : Option String) (path : String),
      ∀ a ∈ parseAnnotations content path, a.line_start ≤ a.line_end + 1) ∧
    (∀ (lines : List (List Char)) (annIdx : Nat) (ext : String),
      (detectAnnotationScope lines annIdx ext).1
        ≤ (detectAnnotationScope lines annIdx ext).2) := by
  constructor
  · intro content path a ha
    cases content with
    | none => simp [parseAnnotations] at ha
    | some c => exact parseLoop_inv _ _ _ _ a ha
  · exact detectScope_le

/-- Witness for C5 at the empty-block file: its record is a member of
the parse result and satisfies the amended bound with equality. -/
theorem claim_C5_invariant_witness :
    ({ trust := some TrustLevel.READ_ONLY, line_start := 2, line_end := 1 } : ParsedAnn)
        ∈ parseAnnotations (some c5cexContent) "f.ts" ∧
    ({ trust := some TrustLevel.READ_ONLY, line_start := 2, line_end := 1 } : ParsedAnn).line_start
      ≤ ({ trust := some TrustLevel.READ_ONLY, line_start := 2, line_end := 1 } : ParsedAnn).line_end + 1 :=
  ⟨by decide, claim_C5_invariant.1 (some c5cexContent) "f.ts" _ (by decide)⟩

/-- C10: refinement between the two exported resolvers. When no line
range is supplied, or when no parsed record of the file both overlaps
the queried range and carries a trust value, the annotation-aware
resolver and getTrustLevel return identical decisions; getTrustLevel
takes no file content at all, so it never consults inline markers. -/
theorem claim_C10_refinement :
    (∀ (cfg : TrustConfig) (content : Option String) (path : String) (le : Option Nat),
      getTrustLevelWithAnnotations cfg content path none le
        = getTrustLevel cfg path none le) ∧
    (∀ (cfg : TrustConfig) (content : Option String) (path : String) (ls : Nat)
        (le : Option Nat),
      (∀ a ∈ parseAnnotations content path, ¬ annHit ls le a) →
      getTrustLevelWithAnnotations cfg content path (some ls) le
        = getTrustLevel cfg path (some ls) le) := by
  constructor
  · intro cfg content path le
    rw [resolveWithNone_eq, getTrustLevelNone_eq]
  · intro cfg content path ls le h
    have hA := (annTier_eq_none_iff (parseAnnotations content path) ls le).mpr h
    rw [resolveWith_eq, getTrustLevel_eq]
    simp only [hA]

/-- Witness for C10: with a trust-less marker overlapping the query,
both resolvers agree (here on the region decision). -/
theorem claim_C10_refinement_witness :
    getTrustLevelWithAnnotations c1Config (some c10Content) "src/auth/login.ts"
        (some 2) none
      = getTrustLevel c1Config "src/auth/login.ts" (some 2) none :=
  claim_C10_refinement.2 c1Config (some c10Content) "src/auth/login.ts" 2 none (by decide)

/-- On a brace-class extension with a definition line inside the file,
the detected scope is the definition line through the brace-scan end. -/
theorem detectScope_brace (lines : List (List Char)) (annIdx d : Nat) (ext : String)
    (hext : braceExts.contains ext = true)
    (hdef : findDefLine lines (annIdx + 1) = d) (hlt : d < lines.length) :
    detectAnnotationScope lines annIdx ext = (d + 1, braceScan lines d + 1) := by
  have hnpy : ¬ ext = "py" := by
    intro hpy
    rw [hpy] at hext
    simp [braceExts] at hext
  simp only [detectAnnotationScope, hdef]
  rw [if_neg (show ¬ d ≥ lines.length by omega), if_neg hnpy, if_pos hext]

/-- C6: for brace-class files the detected scope starts at the first
substantive line d after the marker, and ends at the first line at
which the running brace counter (incremented on opening braces,
decremented on closing braces) is zero after an opening brace has been
seen — or collapses to d when no such line exists; in particular the
spec's four-line example yields lines 2 through 4, not line 3 alone. -/
theorem claim_C6_braceScope :
    (∀ (lines : List (List Char)) (annIdx d : Nat) (ext : String),
      braceExts.contains ext = true →
      findDefLine lines (annIdx + 1) = d →
      d < lines.length →
      (isSubstantive (lines.getD d []) = true ∧
        ∀ j, annIdx + 1 ≤ j → j < d → isSubstantive (lines.getD j []) = false) ∧
      ∃ e, detectAnnotationScope lines annIdx ext = (d + 1, e + 1) ∧ d ≤ e ∧
        ((braceZero lines d e ∧ ∀ i, d ≤ i → i < e → ¬ braceZero lines d i) ∨
         (e = d ∧ ∀ i, d ≤ i → i < lines.length → ¬ braceZero lines d i))) ∧
    detectAnnotationScope c6lines 0 "ts" = (2, 4) := by
  constructor
  · intro lines annIdx d ext hext hdef hlt
    refine ⟨findDefLine_first lines (annIdx + 1) d hdef hlt, ?_⟩
    refine ⟨braceScan lines d, detectScope_brace lines annIdx d ext hext hdef hlt, ?_⟩
    rcases braceScan_lines lines d with ⟨h1, h2, h3, h4⟩ | ⟨h1, h2⟩
    · exact ⟨h1, Or.inl ⟨h3, h4⟩⟩
    · exact ⟨by omega, Or.inr ⟨h1, h2⟩⟩
  · decide

/-- Witness for C6 at the spec's example file. -/
theorem claim_C6_braceScope_witness :
    isSubstantive (c6lines.getD 1 []) = true ∧
    detectAnnotationScope c6lines 0 "ts" = (2, 4) := by
  have h := claim_C6_braceScope.1 c6lines 0 1 "ts" (by decide) (by decide) (by decide)
  exact ⟨h.1.1, by decide⟩

/-- C9: when the brace counter never returns to zero after an opening
brace (unclosed brace, or no brace at all after the definition line),
the scope collapses to the single definition line rather than extending
to end of file. -/
theorem claim_C9_unclosedBrace :
    ∀ (lines : List (List Char)) (annIdx d : Nat) (ext : String),
      braceExts.contains ext = true →
      findDefLine lines (annIdx + 1) = d →
      d < lines.length →
      (∀ i < lines.length, d ≤ i → ¬ braceZero lines d i) →
      detectAnnotationScope lines annIdx ext = (d + 1, d + 1) := by
  intro lines annIdx d ext hext hdef hlt hz
  rw [detectScope_brace lines annIdx d ext hext hdef hlt]
  rcases braceScan_lines lines d with ⟨h1, h2, h3, _⟩ | ⟨h1, _⟩
  · exact absurd h3 (hz _ h2 h1)
  · rw [h1]

/-- Witness for C9: the unclosed function is scoped to its definition
line only (line 2), not to end of file (which would be line 3). -/
theorem claim_C9_unclosedBrace_witness :
    detectAnnotationScope c9lines 0 "ts" = (2, 2) :=
  claim_C9_unclosedBrace c9lines 0 1 "ts" (by decide) (by decide) (by decide) (by decide)

theorem dropConsGetD (lines : List (List Char)) : ∀ (j : Nat), j < lines.length →
    lines.drop j = lines.getD j [] :: lines.drop (j + 1) := by
  induction lines with
  | nil => intro j h; simp at h
  | cons l rest ih =>
    intro j h
    cases j with
    | zero => simp
    | succ j2 =>
      simp only [List.drop_succ_cons, List.getD_cons_succ]
      exact ih j2 (by simpa using h)

theorem isMarker_parts (l : List Char) (h : isMarker l = true) :
    (annotationExec l).isSome = true ∧ blockBeginTest l = false ∧ blockEndTest l = false := by
  rw [isMarker, Bool.and_eq_true, Bool.and_eq_true] at h
  refine ⟨h.1.1, ?_, ?_⟩
  · have h2 := h.1.2
    cases hb : blockBeginTest l
    · rfl
    · rw [hb] at h2; exact absurd h2 (by decide)
  · have h3 := h.2
    cases hc : blockEndTest l
    · rfl
    · rw [hc] at h3; exact absurd h3 (by decide)

theorem isMarker_false_or (l : List Char) (h : isMarker l = false)
    (ha : (annotationExec l).isSome = true) :
    (blockBeginTest l || blockEndTest l) = true := by
  cases hb : blockBeginTest l
  · cases hc : blockEndTest l
    · exfalso
      rw [isMarker, ha, hb, hc] at h
      exact absurd h (by decide)
    · rfl
  · rfl

theorem collectMultiAux_stop (lines : List (List Char)) (acc : AttrAcc) (j last : Nat)
    (h : lines.length ≤ j ∨ isMarker (lines.getD j []) = false) :
    collectMultiAux (lines.drop j) acc j last = (acc, last) := by
  by_cases hj : j < lines.length
  · rcases h with h | h
    · omega
    · rw [dropConsGetD lines j hj]
      cases hae : annotationExec (lines.getD j []) with
      | none => simp only [collectMultiAux, hae]
      | some cap =>
        have hbb := isMarker_false_or (lines.getD j []) h (by rw [hae]; rfl)
        simp only [collectMultiAux, hae]
        rw [if_pos hbb]
  · rw [List.drop_eq_nil_of_le (by omega)]
    rfl

theorem foldAttrs_shift (acc : AttrAcc) (lines : List (List Char)) (j m : Nat)
    (h : j ≤ m) :
    foldAttrs acc lines j m =
      foldAttrs (mergeAttrs acc (parseAttributes (capOf lines j))) lines (j + 1) m := by
  unfold foldAttrs
  have h1 : m + 1 - j = (m - j) + 1 := by omega
  have h2 : m + 1 - (j + 1) = m - j := by omega
  rw [h1, h2, List.range_succ_eq_map]
  have hmap : ((List.range (m - j)).map Nat.succ).map
        (fun k => parseAttributes (capOf lines (j + k)))
      = (List.range (m - j)).map (fun k => parseAttributes (capOf lines (j + 1 + k))) := by
    rw [List.map_map]
    apply List.map_congr_left
    intro k hk
    simp only [Function.comp_apply, Nat.succ_eq_add_one]
    have h4 : j + (k + 1) = j + 1 + k := by omega
    rw [h4]
  simp only [List.map_cons, List.foldl_cons, hmap, Nat.add_zero]

theorem collectMultiAux_run (lines : List (List Char)) : ∀ (n j : Nat)
    (acc : AttrAcc) (last : Nat),
    (∀ k, j ≤ k → k ≤ j + n → isMarker (lines.getD k []) = true) →
    j + n < lines.length →
    (j + n + 1 < lines.length → isMarker (lines.getD (j + n + 1) []) = false) →
    collectMultiAux (lines.drop j) acc j last = (foldAttrs acc lines j (j + n), j + n) := by
  intro n
  induction n with
  | zero =>
    intro j acc last hmark hlt hb
    have hj : j < lines.length := by omega
    obtain ⟨ha, hb1, hb2⟩ := isMarker_parts (lines.getD j []) (hmark j le_rfl (by omega))
    rw [dropConsGetD lines j hj]
    cases hae : annotationExec (lines.getD j []) with
    | none => rw [hae] at ha; exact absurd ha (by decide)
    | some cap =>
      have hbbe : ¬ ((blockBeginTest (lines.getD j [])
          || blockEndTest (lines.getD j [])) = true) := by
        rw [hb1, hb2]; decide
      simp only [collectMultiAux, hae]
      rw [if_neg hbbe]
      have hstop : collectMultiAux (lines.drop (j + 1))
          (mergeAttrs acc (parseAttributes cap)) (j + 1) j
          = (mergeAttrs acc (parseAttributes cap), j) := by
        apply collectMultiAux_stop
        by_cases hc : j + 1 < lines.length
        · right; exact hb (by omega)
        · left; omega
      rw [hstop]
      have hcap : capOf lines j = cap := by rw [capOf, hae]; rfl
      show (mergeAttrs acc (parseAttributes cap), j) = (foldAttrs acc lines j j, j)
      have hfold : foldAttrs acc lines j j = mergeAttrs acc (parseAttributes cap) := by
        rw [foldAttrs]
        have h7 : j + 1 - j = 1 := by omega
        rw [h7]
        have h8 : List.range 1 = [0] := by decide
        rw [h8]
        simp only [List.map_cons, List.map_nil, List.foldl_cons, List.foldl_nil,
          Nat.add_zero, hcap]
      rw [hfold]
  | succ n2 ih =>
    intro j acc last hmark hlt hb
    have hj : j < lines.length := by omega
    obtain ⟨ha, hb1, hb2⟩ := isMarker_parts (lines.getD j []) (hmark j le_rfl (by omega))
    rw [dropConsGetD lines j hj]
    cases hae : annotationExec (lines.getD j []) with
    | none => rw [hae] at ha; exact absurd ha (by decide)
    | some cap =>
      have hbbe : ¬ ((blockBeginTest (lines.getD j [])
          || blockEndTest (lines.getD j [])) = true) := by
        rw [hb1, hb2]; decide
      simp only [collectMultiAux, hae]
      rw [if_neg hbbe]
      have hrec := ih (j + 1) (mergeAttrs acc (parseAttributes cap)) j
        (fun k hk1 hk2 => hmark k (by omega) (by omega))
        (by omega)
        (fun hc => by
          have h5 : j + 1 + n2 + 1 = j + (n2 + 1) + 1 := by omega
          rw [h5]
          exact hb (by omega))
      rw [hrec]
      have hcap : capOf lines j = cap := by rw [capOf, hae]; rfl
      have h6 : j + 1 + n2 = j + (n2 + 1) := by omega
      rw [h6, foldAttrs_shift acc lines j (j + (n2 + 1)) (by omega), hcap]

/-- C7: a run of consecutive marker lines (each matching
ANNOTATION_PATTERN, none a block begin or end) from line i through its
last line m produces exactly one record for the whole run: its
attributes are line i's overwritten left to right by those of lines
i+1..m (Object.assign union, later duplicate keys winning), its scope
is computed once by detectAnnotationScope anchored at the last marker
line m, and scanning resumes after m. In particular the spec's
trust-and-owner pair merges into one record scoped to the function
after the second marker (lines 3-5), and a duplicate trust key keeps
the later value. -/
theorem claim_C7_multiline :
    (∀ (lines : List (List Char)) (ext : String) (fuel i m : Nat),
      i ≤ m →
      m < lines.length →
      (∀ j, j ≤ m → i ≤ j → isMarker (lines.getD j []) = true) →
      (m + 1 < lines.length → isMarker (lines.getD (m + 1) []) = false) →
      parseLoop lines ext (fuel + 1) i =
        mkAnn (mergedAttrs lines i m)
            (detectAnnotationScope lines m ext).1
            (detectAnnotationScope lines m ext).2
          :: parseLoop lines ext fuel (m + 1)) ∧
    parseAnnotations (some c7aContent) "f.ts"
      = [{ trust := some TrustLevel.SUGGEST_ONLY, owner := some "auth-team",
           line_start := 3, line_end := 5 }] ∧
    parseAnnotations (some c7bContent) "f.ts"
      = [{ trust := some TrustLevel.READ_ONLY, line_start := 3, line_end := 4 }] := by
  refine ⟨?_, by decide, by decide⟩
  intro lines ext fuel i m him hmlt hmark hbound
  have hi : i < lines.length := by omega
  obtain ⟨ha, hb1, hb2⟩ := isMarker_parts (lines.getD i []) (hmark i him le_rfl)
  cases hae : annotationExec (lines.getD i []) with
  | none => rw [hae] at ha; exact absurd ha (by decide)
  | some cap =>
  have hbb : blockBeginExec (lines.getD i []) = none := by
    rw [blockBeginTest] at hb1
    cases hx : blockBeginExec (lines.getD i []) with
    | none => rfl
    | some y => rw [hx, Option.isSome_some] at hb1; exact absurd hb1 (by decide)
  have hbe : ¬ blockEndTest (lines.getD i []) = true := by
    rw [hb2]; decide
  simp only [parseLoop, if_pos hi, hbb, hae]
  rw [if_neg hbe]
  have hcap : capOf lines i = cap := by rw [capOf, hae]; rfl
  have hcm : collectMulti lines (parseAttributes cap) (i + 1) i
      = (mergedAttrs lines i m, m) := by
    unfold collectMulti
    by_cases hcase : i = m
    · subst hcase
      rw [collectMultiAux_stop lines (parseAttributes cap) (i + 1) i ?_]
      · rw [mergedAttrs, hcap, foldAttrs]
        have h7 : i + 1 - (i + 1) = 0 := by omega
        rw [h7]
        rfl
      · by_cases hc : i + 1 < lines.length
        · right; exact hbound hc
        · left; omega
    · have hrun := collectMultiAux_run lines (m - (i + 1)) (i + 1) (parseAttributes cap) i
        (fun k hk1 hk2 => hmark k (by omega) (by omega))
        (by omega)
        (fun hc => by
          have h5 : i + 1 + (m - (i + 1)) + 1 = m + 1 := by omega
          rw [h5]
          exact hbound (by omega))
      have h6 : i + 1 + (m - (i + 1)) = m := by omega
      rw [h6] at hrun
      rw [hrun, mergedAttrs, hcap]
  rw [hcm]

/-- Witness for C7's general merging theorem at the spec's scenario:
one loop step on the five-line trust-and-owner file consumes the marker
run 0..1 and emits the single merged record anchored at line index 1. -/
theorem claim_C7_multiline_witness :
    parseLoop c7aLines "ts" 6 0 =
      mkAnn (mergedAttrs c7aLines 0 1)
          (detectAnnotationScope c7aLines 1 "ts").1
          (detectAnnotationScope c7aLines 1 "ts").2
        :: parseLoop c7aLines "ts" 5 2 :=
  claim_C7_multiline.1 c7aLines "ts" 5 0 1 (by decide) (by decide) (by decide) (by decide)

/-- C8 divergence: parseAnnotations splits content only on the newline
character and performs no CR/CRLF normalization. Because the regex dot
never matches a carriage return and the dollar of ANNOTATION_PATTERN
matches only at the end of the input, a CR-encoded file is scanned as
one line whose interior carriage return the capture cannot cross, and a
CRLF-encoded file keeps a trailing carriage return on every line; in
both cases the marker is not recognized at all and the parse result is
empty, while the LF encoding of the same logical file yields the
annotation scoped to line 2 — the three encodings do not produce
identical annotation lists. -/
theorem claim_C8_noNormalization :
    parseAnnotations (some c8lfContent) "f.ts"
      = [{ trust := some TrustLevel.READ_ONLY, line_start := 2, line_end := 2 }] ∧
    parseAnnotations (some c8crContent) "f.ts" = [] ∧
    parseAnnotations (some c8crlfContent) "f.ts" = [] ∧
    ¬ parseAnnotations (some c8lfContent) "f.ts"
      = parseAnnotations (some c8crContent) "f.ts" := by
  decide
